import Mathlib

/-!
Verification development for the MCTS engine of MonteCarloTicTacToe
(src/mcts_modified.py).  The file concatenates two variants of the same
engine: the "modified" bot (iteration budget, heuristic rollout) on lines
1-180 and the "vanilla - Time" bot (time budget, pure random rollout) on
lines 183-322.  Both share the tree model, traverse_nodes, backpropagate
and the final action selection loop of think; they differ in expand_leaf
(the vanilla one checks for a terminal state first) and in rollout.

The tree is embedded as an inductive type; a node is addressed by its
action path from the root, which models the parent back-references of the
missing mcts_node.py (backpropagation along the parent chain becomes an
update of every prefix of the path).  Python dict children are embedded as
association lists in insertion order with first-match lookup and
dict-style insertion.  random.choice is embedded by threading a stream of
naturals; the float scores of traverse_nodes are idealized as values of an
arbitrary linearly ordered type with zero, instantiated with the real
numbers and the source's UCT formula.
-/

set_option maxHeartbeats 1000000

namespace MCTS

/-- Abstract game interface of spec section 6.  The two scoring hooks
owned_boxes and points_values are referenced only by the dead body of the
heuristic rollout (whose loop never runs, see rollout_modified) and are
omitted. -/
structure GameIF (S A : Type) where
  legal_actions : S → List A
  next_state : S → A → S
  current_player : S → Nat
  is_ended : S → Bool

/-- Modelled from the spec: the node type of the missing mcts_node.py,
per spec section 3.  Fields in order: parent_action (none for the root),
children as an association list from action to child node in insertion
order, untried_actions, wins, visits.  The parent back-reference is not a
field; a node is addressed by its action path from the root. -/
inductive Node (A : Type) : Type where
  | mk : Option A → List (A × Node A) → List A → Nat → Nat → Node A

def Node.parent_action {A : Type} : Node A → Option A
  | .mk x _ _ _ _ => x

def Node.children {A : Type} : Node A → List (A × Node A)
  | .mk _ x _ _ _ => x

def Node.untried_actions {A : Type} : Node A → List A
  | .mk _ _ x _ _ => x

def Node.wins {A : Type} : Node A → Nat
  | .mk _ _ _ x _ => x

def Node.visits {A : Type} : Node A → Nat
  | .mk _ _ _ _ x => x

/-- Modelled from the spec: the MCTSNode constructor of the missing
mcts_node.py, as called in the source: MCTSNode(parent, parent_action,
action_list) yields a node with no children, untried_actions equal to the
given action list and zero wins and visits (spec section 3: children
owned by this node, wins and visits start at 0). -/
def newNode {A : Type} (pa : Option A) (actions : List A) : Node A :=
  .mk pa [] actions 0 0

variable {S A : Type}

/-- First-match lookup in an association list, the semantics of reading a
Python dict key (keys are unique in a dict, so first match is the match). -/
def findA [DecidableEq A] : List (A × Node A) → A → Option (Node A)
  | [], _ => none
  | (b, d) :: rest, a => if b = a then some d else findA rest a

/-- Update the value of the first entry with the given key, leaving
everything else unchanged.  On unique-key lists this is the in-place
mutation of the Python node object stored under that dict key. -/
def updFirst [DecidableEq A] (a : A) (f : Node A → Node A) : List (A × Node A) → List (A × Node A)
  | [] => []
  | (b, d) :: rest => if b = a then (b, f d) :: rest else (b, d) :: updFirst a f rest

/-- Python dict assignment child_nodes[action] = child: replace the first
entry with that key in place, or append a new entry at the end. -/
def dictInsert [DecidableEq A] : List (A × Node A) → A → Node A → List (A × Node A)
  | [], a, c => [(a, c)]
  | (b, d) :: rest, a, c => if b = a then (b, c) :: rest else (b, d) :: dictInsert rest a c

/-- The node reached from n by following the action path p through the
children maps (none if the path leaves the tree).  This addresses the node
that the Python code holds as an object reference. -/
def getNode [DecidableEq A] : Node A → List A → Option (Node A)
  | n, [] => some n
  | n, a :: p =>
    match findA n.children a with
    | some d => getNode d p
    | none => none

/-- Replace the node at path p by m (no change if the path leaves the
tree).  Together with getNode this models in-place mutation of the node
object held by the Python code. -/
def setNode [DecidableEq A] : Node A → List A → Node A → Node A
  | _, [], m => m
  | .mk pa cs ua w v, a :: p, m => .mk pa (updFirst a (fun d => setNode d p m) cs) ua w v

/-- One update of backpropagate (mcts_modified.py lines 119-132): if won
then wins += 1; visits += 1. -/
def bump {A : Type} (won : Bool) : Node A → Node A
  | .mk pa cs ua w v => .mk pa cs ua (w + if won then 1 else 0) (v + 1)

/-- Embeds backpropagate (mcts_modified.py lines 119-132, identical on
lines 257-270): starting from the node addressed by path, update wins and
visits, then repeat for the parent until the root inclusive.  The walk up
the parent chain of the source is embedded as an update of the node at
every prefix of the path. -/
def backpropagate [DecidableEq A] (won : Bool) : List A → Node A → Node A
  | [], n => bump won n
  | a :: p, .mk pa cs ua w v => bump won (.mk pa (updFirst a (backpropagate won p) cs) ua w v)

/-- random.choice l for a draw rv from the random stream: index rv mod
length; none embeds the IndexError raised on an empty sequence. -/
def choiceL (rv : Nat) (l : List A) : Option A :=
  l.get? (rv % l.length)

/-- Register a freshly created child under action a, as expand_leaf does:
node.child_nodes[action] = child followed by
node.untried_actions.remove(action). -/
def Node.addChild [DecidableEq A] : Node A → A → Node A → Node A
  | .mk pa cs ua w v, a, c => .mk pa (dictInsert cs a c) (ua.erase a) w v

/-- Embeds expand_leaf of mcts_modified.py (lines 39-55): choose a random
untried action, apply it to the given state, read the child's legal
actions, register the child and remove the action from untried_actions.
There is no terminal-state check; choice on an empty untried list is the
IndexError, embedded as none.  The source returns the child and the new
state; since mutation is modeled functionally, the updated parent node is
returned together with the chosen action (addressing the child as its
a-entry) and the new state. -/
def expand_leaf [DecidableEq A] (g : GameIF S A) (rv : Nat) (node : Node A) (state : S) :
    Option (Node A × A × S) :=
  match choiceL rv node.untried_actions with
  | none => none
  | some action =>
    let st := g.next_state state action
    let actions := g.legal_actions st
    some (node.addChild action (newNode (some action) actions), action, st)

/-- Embeds expand_leaf of the vanilla - Time variant (lines 222-241): the
same expansion, but guarded by if not board.is_ended(state), and on a
terminal state the node and state are returned unchanged (the middle
component none records that no action was expanded). -/
def expand_leaf_vanilla [DecidableEq A] (g : GameIF S A) (rv : Nat) (node : Node A) (state : S) :
    Option (Node A × Option A × S) :=
  if g.is_ended state = false then
    match choiceL rv node.untried_actions with
    | none => none
    | some action =>
      let st := g.next_state state action
      let actions := g.legal_actions st
      some (node.addChild action (newNode (some action) actions), some action, st)
  else
    some (node, none, state)

/-- A stream of random draws: f is the source, i the position.  Every
operation is deterministic given its draws (spec section 7). -/
structure RandS where
  f : Nat → Nat
  i : Nat

def RandS.next (r : RandS) : Nat × RandS :=
  (r.f r.i, ⟨r.f, r.i + 1⟩)

/-- Embeds rollout of the vanilla - Time variant (lines 243-254): while
not board.is_ended(state), apply a uniformly random legal action.  The
while loop is embedded with fuel; none means fuel ran out or legal_actions
returned an empty list on a non-terminal state (the IndexError of
random.choice). -/
def rollout_vanilla (g : GameIF S A) : Nat → RandS → S → Option (S × RandS)
  | 0, _, _ => none
  | fuel + 1, r, state =>
    if g.is_ended state then some (state, r)
    else
      let rn := r.next
      match choiceL rn.1 (g.legal_actions state) with
      | none => none
      | some a => rollout_vanilla g fuel rn.2 (g.next_state state a)

/-- Embeds rollout of mcts_modified.py (lines 58-116).  The loop guard of
the source is: while not board.is_ended: -- the method is never called, so
the guard tests the truthiness of the bound-method object itself, which is
always true; not of it is always false, the loop body (the whole heuristic
sampling machinery, lines 83-115) never runs, and the input state is
returned unchanged. -/
def rollout_modified (g : GameIF S A) (state : S) : S :=
  state

/-- The score of a child of n, as traverse_nodes computes it:
explore(child.wins, child.visits, node.visits, explore_faction), with the
score function abstracted. -/
def childScore {Q : Type} (score : Nat → Nat → Nat → Q) (n : Node A) (c : A × Node A) : Q :=
  score c.2.wins c.2.visits n.visits

/-- The child-selection loop of traverse_nodes (lines 26-34): bestest = 0;
new_node = node; for each child, if its score is strictly greater than
bestest, record it.  Returns the final bestest and the recorded child
(none when no child ever exceeded the initial 0, in which case new_node is
still node itself). -/
def bestChild {Q : Type} [LinearOrder Q] [Zero Q] (sc : A × Node A → Q)
    (cs : List (A × Node A)) : Q × Option (A × Node A) :=
  cs.foldl (fun acc c => if sc c > acc.1 then (sc c, some c) else acc) (0, none)

/-- The child recorded by the selection loop is one of the children (or
was already recorded in the accumulator).  Needed for termination of the
recursive descent. -/
def bestChild_mem_go {A Q : Type} [LinearOrder Q] (sc : A × Node A → Q) :
    ∀ (cs : List (A × Node A)) (acc : Q × Option (A × Node A)) (c : A × Node A),
      (cs.foldl (fun acc c => if sc c > acc.1 then (sc c, some c) else acc) acc).2 = some c →
      c ∈ cs ∨ acc.2 = some c := by
  intro cs
  induction cs with
  | nil => intro acc c h; exact Or.inr h
  | cons d rest ih =>
    intro acc c h
    simp only [List.foldl_cons] at h
    rcases ih _ c h with h1 | h1
    · exact Or.inl (List.mem_cons_of_mem _ h1)
    · by_cases hd : sc d > acc.1
      · rw [if_pos hd] at h1
        simp only [Option.some.injEq] at h1
        exact Or.inl (h1 ▸ List.mem_cons_self d rest)
      · rw [if_neg hd] at h1
        exact Or.inr h1

/-- A member of a children list is smaller than the node, for termination
of descents chosen by arbitrary child selection. -/
def sizeOf_child_lt {A : Type} : ∀ {n : Node A} {c : A × Node A}, c ∈ n.children → sizeOf c.2 < sizeOf n := by
  intro n c h
  rcases n with ⟨pa, cs, ua, w, v⟩
  have h1 : sizeOf c < sizeOf cs := List.sizeOf_lt_of_mem (by simpa [Node.children] using h)
  rcases c with ⟨a, d⟩
  simp only [Prod.mk.sizeOf_spec] at h1
  simp only [Node.mk.sizeOf_spec]
  omega

/-- Embeds traverse_nodes (mcts_modified.py lines 9-37, identical on lines
193-220) over an abstract score.  If the node has untried actions it is
returned at once; otherwise each child is scored and the first child whose
score strictly exceeds the running best (initialized 0) is recorded; if
the final best is not 0, descend into the recorded child.  The board and
identity arguments of the source are unused by its body; the state
argument is passed unchanged into the recursive call, exactly as the
source passes the same state down, and is returned next to the frontier
node (the source returns only new_node, and the caller's sampled_game is
never advanced).  The returned path addresses the frontier node from n.
The arm taking (best, none) with best not 0 is unreachable: a nonzero best
means some child was recorded. -/
def traverse_nodes {S A Q : Type} [DecidableEq A] [LinearOrder Q] [Zero Q]
    (score : Nat → Nat → Nat → Q) : Node A → S → List A × Node A × S
  | n, s =>
    if n.untried_actions = [] then
      match h : bestChild (childScore score n) n.children with
      | (best, some c) =>
        if best ≠ 0 then
          let r := traverse_nodes score c.2 s
          (c.1 :: r.1, r.2)
        else ([], n, s)
      | (_, none) => ([], n, s)
    else ([], n, s)
termination_by n _ => sizeOf n
decreasing_by
  simp only [bestChild] at h
  rcases bestChild_mem_go _ n.children (0, none) c (congrArg Prod.snd h) with hm | hm
  · exact sizeOf_child_lt hm
  · simp at hm

/-- Selection as spec section 4.1 words it: when the node is fully
expanded, compute the greatest UCT score among the children clamped below
at the initial running best 0; if it is 0 descent stops, otherwise descend
into the earliest child attaining it (ties keep the earlier-evaluated
child).  A node with untried actions is returned immediately.  Returns the
root-to-frontier action path. -/
def traverse_spec {A Q : Type} [DecidableEq A] [LinearOrder Q] [Zero Q]
    (score : Nat → Nat → Nat → Q) : Node A → List A
  | n =>
    if n.untried_actions = [] then
      let m := (n.children.map (childScore score n)).foldl max 0
      if m = 0 then []
      else
        match h : n.children.find? (fun c => decide (childScore score n c = m)) with
        | some c => c.1 :: traverse_spec score c.2
        | none => []
    else []
termination_by n => sizeOf n
decreasing_by
  exact sizeOf_child_lt (List.mem_of_find?_eq_some h)

/-- The explore lambda of traverse_nodes (line 21): w over n plus c times
the square root of log t over n, the Python floats idealized as reals. -/
noncomputable def explore (w n t : Nat) (c : ℝ) : ℝ :=
  (w : ℝ) / (n : ℝ) + c * Real.sqrt (Real.log (t : ℝ) / (n : ℝ))

/-- explore_faction = 2. of the source (line 7). -/
noncomputable def explore_faction : ℝ := 2

/-- The UCT score exactly as traverse_nodes applies it:
explore(child.wins, child.visits, node.visits, explore_faction). -/
noncomputable def uctR (w n t : Nat) : ℝ :=
  explore w n t explore_faction

/-- num_nodes = 1000 of the source (line 6): the iteration budget. -/
def num_nodes : Nat := 1000

/-- wins over visits of the final selection loop of think (lines 174,
316), the Python float division idealized as a rational. -/
def ratioQ {A : Type} (n : Node A) : ℚ :=
  (n.wins : ℚ) / (n.visits : ℚ)

/-- Embeds the final selection loop of think (lines 171-178, identical on
lines 313-321): action = None; best = 0.0; for each root child in
insertion order, if its wins over visits ratio is at least the best so
far, record its parent_action and the new best. -/
def bestAction : List (A × Node A) → Option A × ℚ :=
  fun cs =>
    cs.foldl (fun acc c => if ratioQ c.2 ≥ acc.2 then (c.2.parent_action, ratioQ c.2) else acc)
      (none, 0)

/-- The greatest wins over visits ratio among the children, clamped below
at the loop's initial best 0 (every ratio of counts is nonnegative, so the
clamp is inert). -/
def maxRatio : List (A × Node A) → ℚ :=
  fun cs => cs.foldl (fun b c => max b (ratioQ c.2)) 0

/-- Final action selection as spec section 4.5 words it: the parent_action
of the root child with the greatest wins over visits ratio, equal ratios
resolved in favor of the later child in iteration order. -/
def lastArgmax : List (A × Node A) → Option A :=
  fun cs =>
    match cs.reverse.find? (fun c => decide (ratioQ c.2 = maxRatio cs)) with
    | some c => c.2.parent_action
    | none => none

/-- The root of think: MCTSNode(parent=None, parent_action=None,
action_list=board.legal_actions(state)). -/
def rootNode (g : GameIF S A) (state : S) : Node A :=
  newNode none (g.legal_actions state)

/-- One iteration of the search loop of think in mcts_modified.py (lines
148-167): sampled_game = state (never advanced, since traverse_nodes does
not touch it and rollout_modified is the identity); node = root_node; leaf
= traverse_nodes(node, board, sampled_game, identity); if the leaf has
untried actions, node and sampled_game become the new child (addressed by
path ++ [action]) and its state -- otherwise node is STILL root_node, as
in the source, so backpropagation starts at the root; then rollout; won is
true iff the player to move in the resulting state differs from
identity_of_bot; backpropagate(node, won).  The third component counts the
calls of backpropagate.  The none fallback of expand_leaf is unreachable
since the leaf has untried actions there. -/
def thinkStep {S A Q : Type} [DecidableEq A] [LinearOrder Q] [Zero Q]
    (score : Nat → Nat → Nat → Q) (g : GameIF S A) (identity_of_bot : Nat) (state : S)
    (acc : Node A × RandS × Nat) : Node A × RandS × Nat :=
  let tree := acc.1
  let tr := traverse_nodes score tree state
  let leaf := tr.2.1
  if leaf.untried_actions ≠ [] then
    let rn := acc.2.1.next
    match expand_leaf g rn.1 leaf state with
    | some x =>
      let tree2 := setNode tree tr.1 x.1
      let sg := rollout_modified g x.2.2
      let won : Bool := if g.current_player sg = identity_of_bot then false else true
      (backpropagate won (tr.1 ++ [x.2.1]) tree2, rn.2, acc.2.2 + 1)
    | none => (tree, rn.2, acc.2.2)
  else
    let sg := rollout_modified g state
    let won : Bool := if g.current_player sg = identity_of_bot then false else true
    (backpropagate won [] tree, acc.2.1, acc.2.2 + 1)

/-- for step in range(N): the iterations run in order. -/
def thinkLoop {S A Q : Type} [DecidableEq A] [LinearOrder Q] [Zero Q]
    (score : Nat → Nat → Nat → Q) (g : GameIF S A) (idb : Nat) (state : S) :
    Nat → Node A × RandS × Nat → Node A × RandS × Nat
  | 0, acc => acc
  | k + 1, acc => thinkLoop score g idb state k (thinkStep score g idb state acc)

/-- Embeds think of mcts_modified.py (lines 135-180) up to the final
selection: identity_of_bot = board.current_player(state); a fresh root
from the legal actions; N loop iterations (N = num_nodes in the source),
threading the random stream and counting the backpropagate calls. -/
def thinkRun {S A Q : Type} [DecidableEq A] [LinearOrder Q] [Zero Q]
    (score : Nat → Nat → Nat → Q) (g : GameIF S A) (state : S) (r : RandS) (N : Nat) :
    Node A × RandS × Nat :=
  thinkLoop score g (g.current_player state) state N (rootNode g state, r, 0)

/-- The search tree after the budget of N iterations. -/
def thinkTree {S A Q : Type} [DecidableEq A] [LinearOrder Q] [Zero Q]
    (score : Nat → Nat → Nat → Q) (g : GameIF S A) (state : S) (r : RandS) (N : Nat) : Node A :=
  (thinkRun score g state r N).1

/-- How many calls reached backpropagate during the N iterations. -/
def thinkCount {S A Q : Type} [DecidableEq A] [LinearOrder Q] [Zero Q]
    (score : Nat → Nat → Nat → Q) (g : GameIF S A) (state : S) (r : RandS) (N : Nat) : Nat :=
  (thinkRun score g state r N).2.2

/-- Embeds think of mcts_modified.py (lines 135-180): run the budget, then
return the action recorded by the final selection loop (none embeds the
Python None returned when the root has no children). -/
def think {S A Q : Type} [DecidableEq A] [LinearOrder Q] [Zero Q]
    (score : Nat → Nat → Nat → Q) (g : GameIF S A) (state : S) (r : RandS) (N : Nat) : Option A :=
  (bestAction (thinkTree score g state r N).children).1

/-- Soundness invariant of every tree the driver builds: wins at most
visits, distinct children keys (they come from a Python dict), every child
visited at least once and at most as often as its parent, recursively. -/
def invar {A : Type} [DecidableEq A] : Node A → Bool
  | .mk _ cs _ w v =>
    decide (w ≤ v) && decide (cs.map Prod.fst).Nodup &&
      cs.attach.all (fun c => decide (c.1.2.visits ≤ v) && decide (1 ≤ c.1.2.visits) && invar c.1.2)
termination_by n => sizeOf n
decreasing_by
  rcases c with ⟨⟨a, d⟩, hmem⟩
  have h1 := List.sizeOf_lt_of_mem hmem
  simp only [Prod.mk.sizeOf_spec] at h1
  simp only [Node.mk.sizeOf_spec]
  omega

/-- Concrete never-ending game on natural states: one legal action 0, and
next_state strictly increases the state. -/
def gC : GameIF Nat Nat :=
  ⟨fun _ => [0], fun s a => s + a + 1, fun s => s % 2 + 1, fun _ => false⟩

/-- Concrete everywhere-terminal game: no legal actions anywhere. -/
def gT : GameIF Nat Nat :=
  ⟨fun _ => [], fun s _ => s, fun s => s % 2 + 1, fun _ => true⟩

/-- Concrete countdown game: from a nonzero state the single action 1
subtracts one; state 0 is terminal. -/
def gCount : GameIF Nat Nat :=
  ⟨fun s => if s = 0 then [] else [1], fun s a => s - a, fun s => s % 2 + 1, fun s => decide (s = 0)⟩

/-- Concrete two-action game: from a nonzero state the actions 1 and 2
subtract; state 0 is terminal. -/
def gTwo : GameIF Nat Nat :=
  ⟨fun s => if s = 0 then [] else [1, 2], fun s a => s - a, fun s => s % 2 + 1, fun s => decide (s = 0)⟩

/-- The constant-zero random stream. -/
def rZero : RandS :=
  ⟨fun _ => 0, 0⟩

/-- A child with one win in one visit and an untried action left. -/
def childC : Node Nat := .mk (some 0) [] [0] 1 1

/-- A fully expanded root (one visit) whose single child is childC: the
child's UCT score is 1/1 + 2 sqrt(log 1 / 1) = 1, so selection descends
into it. -/
def rootC : Node Nat := .mk none [(0, childC)] [] 0 1

/-- A node of a terminal position: no untried actions and no children. -/
def nodeT : Node Nat := .mk none [] [] 0 0

/-- Boolean prefix test on action paths: the positions backpropagate
updates are exactly the prefixes of its path, i.e. the parent chain from
the addressed node up to the root inclusive. -/
def isPref [DecidableEq A] : List A → List A → Bool
  | [], _ => true
  | _ :: _, [] => false
  | a :: p, b :: q => decide (a = b) && isPref p q

@[simp] theorem parent_action_mk {A : Type} (pa : Option A) (cs : List (A × Node A))
    (ua : List A) (w v : Nat) : (Node.mk pa cs ua w v).parent_action = pa := rfl

@[simp] theorem children_mk {A : Type} (pa : Option A) (cs : List (A × Node A))
    (ua : List A) (w v : Nat) : (Node.mk pa cs ua w v).children = cs := rfl

@[simp] theorem untried_actions_mk {A : Type} (pa : Option A) (cs : List (A × Node A))
    (ua : List A) (w v : Nat) : (Node.mk pa cs ua w v).untried_actions = ua := rfl

@[simp] theorem wins_mk {A : Type} (pa : Option A) (cs : List (A × Node A))
    (ua : List A) (w v : Nat) : (Node.mk pa cs ua w v).wins = w := rfl

@[simp] theorem visits_mk {A : Type} (pa : Option A) (cs : List (A × Node A))
    (ua : List A) (w v : Nat) : (Node.mk pa cs ua w v).visits = v := rfl

@[simp] theorem bump_parent_action {A : Type} (won : Bool) (n : Node A) :
    (bump won n).parent_action = n.parent_action := by cases n <;> rfl

@[simp] theorem bump_children {A : Type} (won : Bool) (n : Node A) :
    (bump won n).children = n.children := by cases n <;> rfl

@[simp] theorem bump_untried_actions {A : Type} (won : Bool) (n : Node A) :
    (bump won n).untried_actions = n.untried_actions := by cases n <;> rfl

@[simp] theorem bump_wins {A : Type} (won : Bool) (n : Node A) :
    (bump won n).wins = n.wins + if won then 1 else 0 := by cases n <;> rfl

@[simp] theorem bump_visits {A : Type} (won : Bool) (n : Node A) :
    (bump won n).visits = n.visits + 1 := by cases n <;> rfl

theorem backpropagate_nil {A : Type} [DecidableEq A] (won : Bool) (n : Node A) :
    backpropagate won [] n = bump won n := rfl

theorem backpropagate_cons {A : Type} [DecidableEq A] (won : Bool) (a : A) (p : List A)
    (n : Node A) :
    backpropagate won (a :: p) n =
      bump won (.mk n.parent_action (updFirst a (backpropagate won p) n.children)
        n.untried_actions n.wins n.visits) := by
  cases n <;> rfl

theorem findA_updFirst_self {A : Type} [DecidableEq A] (a : A) (f : Node A → Node A) :
    ∀ cs : List (A × Node A), findA (updFirst a f cs) a = (findA cs a).map f := by
  intro cs
  induction cs with
  | nil => rfl
  | cons c rest ih =>
    rcases c with ⟨b, d⟩
    by_cases hb : b = a
    · simp [updFirst, findA, hb]
    · simp [updFirst, findA, hb, ih]

theorem findA_updFirst_ne {A : Type} [DecidableEq A] {a b : A} (f : Node A → Node A)
    (hba : b ≠ a) : ∀ cs : List (A × Node A), findA (updFirst a f cs) b = findA cs b := by
  intro cs
  induction cs with
  | nil => rfl
  | cons c rest ih =>
    rcases c with ⟨e, d⟩
    by_cases he : e = a
    · subst he
      simp [updFirst, findA, Ne.symm hba]
    · by_cases heb : e = b <;> simp [updFirst, findA, he, heb, ih, hba]

@[simp] theorem updFirst_keys {A : Type} [DecidableEq A] (a : A) (f : Node A → Node A) :
    ∀ cs : List (A × Node A), (updFirst a f cs).map Prod.fst = cs.map Prod.fst := by
  intro cs
  induction cs with
  | nil => rfl
  | cons c rest ih =>
    rcases c with ⟨b, d⟩
    by_cases hb : b = a <;> simp [updFirst, hb, ih]

theorem getNode_cons {A : Type} [DecidableEq A] (n : Node A) (a : A) (p : List A) :
    getNode n (a :: p) =
      match findA n.children a with
      | some d => getNode d p
      | none => none := rfl

theorem getNode_bump_cons {A : Type} [DecidableEq A] (won : Bool) (n : Node A) (a : A)
    (p : List A) : getNode (bump won n) (a :: p) = getNode n (a :: p) := by
  rw [getNode_cons, getNode_cons, bump_children]

theorem traverse_unfold_descend {S A Q : Type} [DecidableEq A] [LinearOrder Q] [Zero Q]
    (score : Nat → Nat → Nat → Q) (n : Node A) (s : S) (best : Q) (c : A × Node A)
    (hu : n.untried_actions = [])
    (hbc : bestChild (childScore score n) n.children = (best, some c)) (hb : best ≠ 0) :
    traverse_nodes score n s =
      (c.1 :: (traverse_nodes score c.2 s).1, (traverse_nodes score c.2 s).2) := by
  rw [traverse_nodes, if_pos hu]
  split
  · rename_i best' c' heq
    rw [hbc] at heq
    injection heq with h1 h2
    injection h2 with h2
    subst h1
    subst h2
    rw [if_pos hb]
  · rename_i fst' heq
    rw [hbc] at heq
    injection heq with h1 h2
    simp at h2

theorem traverse_unfold_stop {S A Q : Type} [DecidableEq A] [LinearOrder Q] [Zero Q]
    (score : Nat → Nat → Nat → Q) (n : Node A) (s : S) (c : A × Node A)
    (hu : n.untried_actions = [])
    (hbc : bestChild (childScore score n) n.children = (0, some c)) :
    traverse_nodes score n s = ([], n, s) := by
  rw [traverse_nodes, if_pos hu]
  split
  · rename_i best' c' heq
    rw [hbc] at heq
    injection heq with h1 h2
    subst h1
    simp
  · rfl

theorem traverse_unfold_none {S A Q : Type} [DecidableEq A] [LinearOrder Q] [Zero Q]
    (score : Nat → Nat → Nat → Q) (n : Node A) (s : S) (b : Q)
    (hu : n.untried_actions = [])
    (hbc : bestChild (childScore score n) n.children = (b, none)) :
    traverse_nodes score n s = ([], n, s) := by
  rw [traverse_nodes, if_pos hu]
  split
  · rename_i best' c' heq
    rw [hbc] at heq
    injection heq with h1 h2
    simp at h2
  · rfl

theorem traverse_unfold_untried {S A Q : Type} [DecidableEq A] [LinearOrder Q] [Zero Q]
    (score : Nat → Nat → Nat → Q) (n : Node A) (s : S) (hu : n.untried_actions ≠ []) :
    traverse_nodes score n s = ([], n, s) := by
  rw [traverse_nodes, if_neg hu]

/-- The state component returned by traverse_nodes is always the input
state: the source passes the same state through every recursive call and
never applies an action to it. -/
theorem traverse_state_eq {S A Q : Type} [DecidableEq A] [LinearOrder Q] [Zero Q]
    (score : Nat → Nat → Nat → Q) : ∀ (n : Node A) (s : S), (traverse_nodes score n s).2.2 = s := by
  intro n s
  induction n, s using traverse_nodes.induct score with
  | x_2 => infer_instance
  | case1 n s hu best c hbc hb ih =>
    rw [traverse_unfold_descend score n s best c hu hbc hb]
    simpa using ih
  | case2 n s hu best c hbc hb =>
    rw [not_not] at hb
    rw [hb] at hbc
    rw [traverse_unfold_stop score n s c hu hbc]
  | case3 n s hu fst hbc =>
    rw [traverse_unfold_none score n s fst hu hbc]
  | case4 n s hu =>
    rw [traverse_unfold_untried score n s hu]

theorem invar_mk {A : Type} [DecidableEq A] (pa : Option A) (cs : List (A × Node A))
    (ua : List A) (w v : Nat) :
    invar (Node.mk pa cs ua w v) =
      (decide (w ≤ v) && decide (cs.map Prod.fst).Nodup &&
        cs.attach.all (fun c => decide (c.1.2.visits ≤ v) && decide (1 ≤ c.1.2.visits) &&
          invar c.1.2)) := by
  rw [invar]

/-- Propositional reading of the tree invariant. -/
theorem invar_iff {A : Type} [DecidableEq A] (n : Node A) :
    invar n = true ↔
      n.wins ≤ n.visits ∧ (n.children.map Prod.fst).Nodup ∧
        ∀ c ∈ n.children, c.2.visits ≤ n.visits ∧ 1 ≤ c.2.visits ∧ invar c.2 = true := by
  rcases n with ⟨pa, cs, ua, w, v⟩
  rw [invar_mk]
  simp only [Bool.and_eq_true, decide_eq_true_eq, List.all_eq_true, List.mem_attach,
    true_implies, Subtype.forall, children_mk, wins_mk, visits_mk]
  constructor
  · rintro ⟨⟨h1, h2⟩, h3⟩
    refine ⟨h1, h2, fun c hc => ?_⟩
    rcases h3 c hc with ⟨⟨ha, hb⟩, hcv⟩
    exact ⟨ha, hb, hcv⟩
  · rintro ⟨h1, h2, h3⟩
    refine ⟨⟨h1, h2⟩, fun c hc => ?_⟩
    rcases h3 c hc with ⟨ha, hb, hcv⟩
    exact ⟨⟨ha, hb⟩, hcv⟩

theorem findA_mem {A : Type} [DecidableEq A] :
    ∀ {cs : List (A × Node A)} {a : A} {d : Node A}, findA cs a = some d → (a, d) ∈ cs := by
  intro cs
  induction cs with
  | nil => intro a d h; simp [findA] at h
  | cons c rest ih =>
    intro a d h
    rcases c with ⟨b, e⟩
    by_cases hb : b = a
    · subst hb
      simp [findA] at h
      subst h
      exact List.mem_cons_self _ _
    · rw [findA, if_neg hb] at h
      exact List.mem_cons_of_mem _ (ih h)

theorem findA_of_mem_nodup {A : Type} [DecidableEq A] :
    ∀ {cs : List (A × Node A)} {a : A} {d : Node A},
      (cs.map Prod.fst).Nodup → (a, d) ∈ cs → findA cs a = some d := by
  intro cs
  induction cs with
  | nil => intro a d _ h; simp at h
  | cons c rest ih =>
    intro a d hnd hm
    rcases c with ⟨b, e⟩
    rw [List.map_cons, List.nodup_cons] at hnd
    rcases List.mem_cons.mp hm with heq | hm2
    · rw [Prod.mk.injEq] at heq
      rw [findA, if_pos heq.1.symm, heq.2]
    · have hba : b ≠ a := by
        intro hba
        apply hnd.1
        subst hba
        simpa using List.mem_map_of_mem Prod.fst hm2
      rw [findA, if_neg hba]
      exact ih hnd.2 hm2

theorem getNode_cons_found {A : Type} [DecidableEq A] {n : Node A} {a : A} {d : Node A}
    (h : findA n.children a = some d) (p : List A) : getNode n (a :: p) = getNode d p := by
  rw [getNode_cons, h]

/-- The recorded child of the selection loop is a member of the children. -/
theorem bestChild_mem {A Q : Type} [LinearOrder Q] [Zero Q] {sc : A × Node A → Q}
    {cs : List (A × Node A)} {b : Q} {c : A × Node A} (h : bestChild sc cs = (b, some c)) :
    c ∈ cs := by
  rcases bestChild_mem_go sc cs (0, none) c (by rw [bestChild] at h; exact congrArg Prod.snd h)
    with hm | hm
  · exact hm
  · simp at hm

/-- On a tree with distinct child keys the path returned by traverse_nodes
addresses exactly the frontier node it returns. -/
theorem traverse_getNode {S A Q : Type} [DecidableEq A] [LinearOrder Q] [Zero Q]
    (score : Nat → Nat → Nat → Q) : ∀ (n : Node A) (s : S), invar n = true →
      getNode n (traverse_nodes score n s).1 = some (traverse_nodes score n s).2.1 := by
  intro n s
  induction n, s using traverse_nodes.induct score with
  | x_2 => infer_instance
  | case1 n s hu best c hbc hb ih =>
    intro hinv
    rw [traverse_unfold_descend score n s best c hu hbc hb]
    have hc : c ∈ n.children := bestChild_mem hbc
    have hfind : findA n.children c.1 = some c.2 := by
      apply findA_of_mem_nodup ((invar_iff n).mp hinv).2.1
      rcases c with ⟨a, d⟩
      exact hc
    rw [getNode_cons_found hfind]
    exact ih ((((invar_iff n).mp hinv).2.2 c hc).2.2)
  | case2 n s hu best c hbc hb =>
    intro _
    rw [not_not] at hb
    rw [hb] at hbc
    rw [traverse_unfold_stop score n s c hu hbc]
    rfl
  | case3 n s hu fst hbc =>
    intro _
    rw [traverse_unfold_none score n s fst hu hbc]
    rfl
  | case4 n s hu =>
    intro _
    rw [traverse_unfold_untried score n s hu]
    rfl

theorem invar_getNode {A : Type} [DecidableEq A] :
    ∀ (p : List A) (t n : Node A), invar t = true → getNode t p = some n → invar n = true := by
  intro p
  induction p with
  | nil =>
    intro t n h hg
    simp [getNode] at hg
    subst hg
    exact h
  | cons a q ih =>
    intro t n h hg
    rw [getNode_cons] at hg
    cases hfind : findA t.children a with
    | none => rw [hfind] at hg; simp at hg
    | some d =>
      rw [hfind] at hg
      exact ih d n (((invar_iff t).mp h).2.2 _ (findA_mem hfind)).2.2 hg

/-- Claim C7: backpropagation increments visits by exactly 1 on every node
of the parent chain from the starting node up to and including the root
(the prefixes of its path), increments wins by exactly 1 on exactly those
nodes iff won is true, and changes nothing else: untried actions,
parent_action, child keys and all off-chain nodes are untouched. -/
theorem backpropagate_updates_exactly_path :
    ∀ (A : Type) (inst : DecidableEq A) (t : Node A) (won : Bool) (path p : List A),
      Option.map Node.visits (getNode (backpropagate won path t) p) =
        Option.map (fun n => n.visits + if isPref p path then 1 else 0) (getNode t p) ∧
      Option.map Node.wins (getNode (backpropagate won path t) p) =
        Option.map (fun n => n.wins + if isPref p path = true ∧ won = true then 1 else 0)
          (getNode t p) ∧
      Option.map Node.untried_actions (getNode (backpropagate won path t) p) =
        Option.map Node.untried_actions (getNode t p) ∧
      Option.map Node.parent_action (getNode (backpropagate won path t) p) =
        Option.map Node.parent_action (getNode t p) ∧
      Option.map (fun n => n.children.map Prod.fst) (getNode (backpropagate won path t) p) =
        Option.map (fun n => n.children.map Prod.fst) (getNode t p) := by
  intro A inst t won path p
  induction path generalizing t p with
  | nil =>
    rw [backpropagate_nil]
    cases p with
    | nil => simp [getNode, isPref]
    | cons b q =>
      rw [getNode_bump_cons]
      simp [isPref]
  | cons a path' ih =>
    rw [backpropagate_cons]
    cases p with
    | nil => simp [getNode, isPref]
    | cons b q =>
      rw [getNode_bump_cons, getNode_cons, getNode_cons]
      simp only [children_mk]
      by_cases hb : b = a
      · subst hb
        rw [findA_updFirst_self]
        cases hfind : findA t.children b with
        | none => simp
        | some d =>
          simp only [Option.map_some]
          have := ih d q
          simpa [isPref] using this
      · rw [findA_updFirst_ne _ hb]
        cases hfind : findA t.children b with
        | none => simp
        | some d =>
          simp [isPref, hb]

theorem uctR_one : uctR 1 1 1 = 1 := by
  rw [uctR, explore, explore_faction]
  norm_num [Real.log_one]

/-- Claim C1 (code bug evidence): the pure random rollout of the vanilla
variant does return a state the game reports as ended whenever it returns
at all (first conjunct), but the heuristic rollout of mcts_modified.py
returns its input state unchanged -- its while guard reads the method
object board.is_ended without calling it, which is always truthy -- so on
the non-terminal state 1 of the never-ending game gC the state it returns
is one the game interface reports as not ended. -/
theorem rollout_terminality :
    (∀ (S A : Type) (g : GameIF S A) (fuel : Nat) (r : RandS) (s : S) (out : S × RandS),
        rollout_vanilla g fuel r s = some out → g.is_ended out.1 = true) ∧
    rollout_modified gC 1 = 1 ∧ gC.is_ended 1 = false := by
  refine ⟨?_, rfl, rfl⟩
  intro S A g fuel
  induction fuel with
  | zero =>
    intro r s out h
    simp [rollout_vanilla] at h
  | succ k ih =>
    intro r s out h
    rw [rollout_vanilla] at h
    by_cases he : g.is_ended s = true
    · rw [if_pos he] at h
      injection h with h
      subst h
      exact he
    · rw [if_neg he] at h
      dsimp only at h
      cases hch : choiceL r.next.1 (g.legal_actions s) with
      | none => rw [hch] at h; exact absurd h (by simp)
      | some a =>
        rw [hch] at h
        exact ih _ _ _ h

theorem rollout_terminality_witness : gCount.is_ended 0 = true :=
  rollout_terminality.1 Nat Nat gCount 3 rZero 2 (0, ⟨rZero.f, 2⟩) (by rfl)

/-- Claim C2 (code bug evidence): selection never advances the game state.
The first conjunct shows that for every score function, tree and state the
state returned along the frontier node is the input state itself (the
source passes the same state into each recursive call and applies no
action).  The remaining conjuncts evaluate the code with the real UCT
score on a fully expanded root whose single child scores 1 + 2 sqrt(log 1)
= 1: selection descends into the child (path [0]) yet returns the
untouched state 0, even though applying the child's parent_action 0 would
give a different state. -/
theorem traverse_state_never_advanced :
    (∀ (S A Q : Type) [DecidableEq A] [LinearOrder Q] [Zero Q]
        (score : Nat → Nat → Nat → Q) (n : Node A) (s : S),
        (traverse_nodes score n s).2.2 = s) ∧
    traverse_nodes uctR rootC (0 : Nat) = ([0], childC, 0) ∧
    gC.next_state 0 0 ≠ 0 := by
  refine ⟨?_, ?_, by decide⟩
  · intro S A Q instA instL instZ score n s
    exact traverse_state_eq score n s
  · have hsc : childScore uctR rootC ((0 : Nat), childC) = 1 := by
      show uctR childC.wins childC.visits rootC.visits = 1
      simp only [childC, rootC, wins_mk, visits_mk]
      exact uctR_one
    have hbc : bestChild (childScore uctR rootC) rootC.children = (1, some (0, childC)) := by
      show bestChild (childScore uctR rootC) [(0, childC)] = (1, some (0, childC))
      rw [bestChild]
      simp only [List.foldl_cons, List.foldl_nil, hsc]
      norm_num
    rw [traverse_unfold_descend uctR rootC (0 : Nat) 1 ((0 : Nat), childC) rfl hbc one_ne_zero,
      traverse_unfold_untried uctR childC (0 : Nat) (by simp [childC])]

theorem foldl_max_ge_init {A Q : Type} [LinearOrder Q] (sc : A × Node A → Q) :
    ∀ (cs : List (A × Node A)) (b : Q), b ≤ cs.foldl (fun m c => max m (sc c)) b := by
  intro cs
  induction cs with
  | nil => intro b; exact le_refl b
  | cons c rest ih =>
    intro b
    rw [List.foldl_cons]
    exact le_trans (le_max_left _ _) (ih (max b (sc c)))

theorem foldl_max_attained {A Q : Type} [LinearOrder Q] (sc : A × Node A → Q) :
    ∀ (cs : List (A × Node A)) (b : Q),
      cs.foldl (fun m c => max m (sc c)) b = b ∨
        ∃ c ∈ cs, sc c = cs.foldl (fun m c => max m (sc c)) b := by
  intro cs
  induction cs with
  | nil => intro b; exact Or.inl rfl
  | cons c rest ih =>
    intro b
    rw [List.foldl_cons]
    rcases ih (max b (sc c)) with h | h
    · rw [h]
      rcases max_cases b (sc c) with ⟨h1, _⟩ | ⟨h1, _⟩
      · exact Or.inl h1
      · exact Or.inr ⟨c, List.mem_cons_self _ _, h1.symm⟩
    · rcases h with ⟨d, hd, hsc⟩
      exact Or.inr ⟨d, List.mem_cons_of_mem _ hd, hsc⟩

/-- Characterization of the strict-improvement selection loop: starting
from running best b and recorded child o, the final best is the running
maximum, and the recorded child is the first child attaining it, unless
the maximum never moved above b, in which case o is kept. -/
theorem bestChild_go_spec {A Q : Type} [LinearOrder Q] (sc : A × Node A → Q) :
    ∀ (cs : List (A × Node A)) (b : Q) (o : Option (A × Node A)),
      cs.foldl (fun acc c => if sc c > acc.1 then (sc c, some c) else acc) (b, o) =
        (cs.foldl (fun m c => max m (sc c)) b,
          if cs.foldl (fun m c => max m (sc c)) b = b then o
          else cs.find? (fun c => decide (sc c = cs.foldl (fun m c => max m (sc c)) b))) := by
  intro cs
  induction cs with
  | nil => intro b o; simp
  | cons c rest ih =>
    intro b o
    simp only [List.foldl_cons, List.find?_cons]
    by_cases hgt : sc c > b
    · rw [if_pos hgt]
      simp only [max_eq_right (le_of_lt hgt)]
      rw [ih (sc c) (some c)]
      have hge : sc c ≤ rest.foldl (fun m c => max m (sc c)) (sc c) := foldl_max_ge_init sc rest (sc c)
      have hne : rest.foldl (fun m c => max m (sc c)) (sc c) ≠ b :=
        fun h => absurd (lt_of_lt_of_le hgt (h ▸ hge)) (lt_irrefl b)
      rw [if_neg hne]
      by_cases hc : sc c = rest.foldl (fun m c => max m (sc c)) (sc c)
      · rw [if_pos hc.symm, decide_eq_true hc]
      · rw [if_neg (fun h => hc h.symm), decide_eq_false hc]
    · rw [if_neg hgt]
      simp only [max_eq_left (le_of_not_lt hgt)]
      rw [ih b o]
      by_cases hM : rest.foldl (fun m c => max m (sc c)) b = b
      · rw [if_pos hM, if_pos hM]
      · rw [if_neg hM, if_neg hM]
        have hlt : b < rest.foldl (fun m c => max m (sc c)) b :=
          lt_of_le_of_ne (foldl_max_ge_init sc rest b) (fun h => hM h.symm)
        have hcne : ¬(sc c = rest.foldl (fun m c => max m (sc c)) b) :=
          fun h => absurd (h ▸ lt_of_le_of_lt (le_of_not_lt hgt) hlt) (lt_irrefl _)
        rw [decide_eq_false hcne]

theorem bestChild_spec {A Q : Type} [LinearOrder Q] [Zero Q] (sc : A × Node A → Q)
    (cs : List (A × Node A)) :
    bestChild sc cs =
      (cs.foldl (fun m c => max m (sc c)) 0,
        if cs.foldl (fun m c => max m (sc c)) 0 = 0 then none
        else cs.find? (fun c => decide (sc c = cs.foldl (fun m c => max m (sc c)) 0))) := by
  rw [bestChild]
  exact bestChild_go_spec sc cs 0 none

theorem traverse_spec_unfold_descend {A Q : Type} [DecidableEq A] [LinearOrder Q] [Zero Q]
    (score : Nat → Nat → Nat → Q) (n : Node A) (c : A × Node A)
    (hu : n.untried_actions = [])
    (hm : (n.children.map (childScore score n)).foldl max 0 ≠ 0)
    (hf : n.children.find?
        (fun c => decide (childScore score n c = (n.children.map (childScore score n)).foldl max 0)) =
        some c) :
    traverse_spec score n = c.1 :: traverse_spec score c.2 := by
  rw [traverse_spec, if_pos hu]
  dsimp only
  rw [if_neg hm]
  split
  · rename_i c' heq
    rw [hf] at heq
    injection heq with heq
    rw [heq]
  · rename_i heq
    rw [hf] at heq
    cases heq

theorem traverse_spec_unfold_zero {A Q : Type} [DecidableEq A] [LinearOrder Q] [Zero Q]
    (score : Nat → Nat → Nat → Q) (n : Node A) (hu : n.untried_actions = [])
    (hm : (n.children.map (childScore score n)).foldl max 0 = 0) :
    traverse_spec score n = [] := by
  rw [traverse_spec, if_pos hu]
  dsimp only
  rw [if_pos hm]

theorem traverse_spec_unfold_untried {A Q : Type} [DecidableEq A] [LinearOrder Q] [Zero Q]
    (score : Nat → Nat → Nat → Q) (n : Node A) (hu : n.untried_actions ≠ []) :
    traverse_spec score n = [] := by
  rw [traverse_spec, if_neg hu]

theorem foldl_max_map {A Q : Type} [LinearOrder Q] (sc : A × Node A → Q)
    (cs : List (A × Node A)) (b : Q) :
    (cs.map sc).foldl max b = cs.foldl (fun m c => max m (sc c)) b :=
  List.foldl_map sc max cs b

/-- Selection agrees with its specification for every score function. -/
theorem traverse_nodes_eq_spec_gen {S A Q : Type} [DecidableEq A] [LinearOrder Q] [Zero Q]
    (score : Nat → Nat → Nat → Q) :
    ∀ (n : Node A) (s : S), (traverse_nodes score n s).1 = traverse_spec score n := by
  intro n s
  induction n, s using traverse_nodes.induct score with
  | x_2 => infer_instance
  | case1 n s hu best c hbc hb ih =>
    rw [traverse_unfold_descend score n s best c hu hbc hb]
    rw [bestChild_spec] at hbc
    injection hbc with h1 h2
    by_cases hF : n.children.foldl (fun m c => max m (childScore score n c)) 0 = 0
    · rw [if_pos hF] at h2
      cases h2
    · rw [if_neg hF] at h2
      rw [traverse_spec_unfold_descend score n c hu
        (by rw [foldl_max_map]; exact hF) (by rw [foldl_max_map]; exact h2)]
      rw [List.cons_eq_cons]
      exact ⟨rfl, ih⟩
  | case2 n s hu best c hbc hb =>
    rw [not_not] at hb
    rw [bestChild_spec] at hbc
    injection hbc with h1 h2
    rw [if_pos (h1.trans hb)] at h2
    cases h2
  | case3 n s hu fst hbc =>
    rw [traverse_unfold_none score n s fst hu hbc]
    rw [bestChild_spec] at hbc
    injection hbc with h1 h2
    by_cases hF : n.children.foldl (fun m c => max m (childScore score n c)) 0 = 0
    · rw [traverse_spec_unfold_zero score n hu (by rw [foldl_max_map]; exact hF)]
    · exfalso
      rw [if_neg hF] at h2
      rcases foldl_max_attained (childScore score n) n.children 0 with h | ⟨d, hd, hsc⟩
      · exact hF h
      · rw [List.find?_eq_none] at h2
        exact h2 d hd (by simpa using hsc)
  | case4 n s hu =>
    rw [traverse_unfold_untried score n s hu, traverse_spec_unfold_untried score n hu]

/-- Claim C5: with the UCT score uctR (wins over visits plus
explore_faction = 2 times the square root of log of the parent's visits
over the child's visits), selection as coded equals its specification:
a node with untried actions is returned immediately; otherwise every child
is scored, a child is selected only if its score strictly exceeds the
running best started at 0 (so ties keep the earlier-evaluated child and a
best of exactly 0 stops descent, returning the current node), and descent
recurses into the selected child. -/
theorem traverse_nodes_eq_spec :
    ∀ (S A : Type) [DecidableEq A] (n : Node A) (s : S),
      (traverse_nodes uctR n s).1 = traverse_spec uctR n := by
  intro S A instA n s
  exact traverse_nodes_eq_spec_gen uctR n s

theorem find?_append {α : Type} (p : α → Bool) :
    ∀ (l1 l2 : List α), (l1 ++ l2).find? p =
      match l1.find? p with
      | some x => some x
      | none => l2.find? p := by
  intro l1 l2
  induction l1 with
  | nil => simp
  | cons x rest ih =>
    cases hp : p x with
    | true => simp [List.find?_cons, hp]
    | false => simp [List.find?_cons, hp, ih]

/-- Characterization of the greater-or-equal selection loop of think's
final action choice: the final best is the running maximum, and the
recorded action is the parent_action of the last child attaining it (the
accumulator action survives only when no child attains the maximum, which
requires the maximum to have stayed at the initial best). -/
theorem bestAction_go_spec {A : Type} :
    ∀ (cs : List (A × Node A)) (o : Option A) (b : ℚ),
      cs.foldl (fun acc c => if ratioQ c.2 ≥ acc.2 then (c.2.parent_action, ratioQ c.2) else acc)
          (o, b) =
        ((match cs.reverse.find?
            (fun c => decide (ratioQ c.2 = cs.foldl (fun m c => max m (ratioQ c.2)) b)) with
          | some c => c.2.parent_action
          | none => o),
          cs.foldl (fun m c => max m (ratioQ c.2)) b) := by
  intro cs
  induction cs with
  | nil => intro o b; simp
  | cons c rest ih =>
    intro o b
    simp only [List.foldl_cons, List.reverse_cons]
    rw [find?_append]
    by_cases hge : ratioQ c.2 ≥ b
    · rw [if_pos hge]
      simp only [max_eq_right hge]
      rw [ih c.2.parent_action (ratioQ c.2)]
      cases hf : rest.reverse.find?
          (fun x => decide (ratioQ x.2 = rest.foldl (fun m c => max m (ratioQ c.2)) (ratioQ c.2)))
        with
      | some d => rfl
      | none =>
        by_cases hc : ratioQ c.2 = rest.foldl (fun m c => max m (ratioQ c.2)) (ratioQ c.2)
        · simp [List.find?_cons, decide_eq_true hc]
        · exfalso
          rcases foldl_max_attained (fun c => ratioQ c.2) rest (ratioQ c.2) with h | ⟨d, hd, hsc⟩
          · exact hc h.symm
          · rw [List.find?_eq_none] at hf
            exact hf d (List.mem_reverse.mpr hd) (by simpa using hsc)
    · rw [if_neg hge]
      have hle : ratioQ c.2 ≤ b := le_of_not_le hge
      simp only [max_eq_left hle]
      rw [ih o b]
      cases hf : rest.reverse.find?
          (fun x => decide (ratioQ x.2 = rest.foldl (fun m c => max m (ratioQ c.2)) b)) with
      | some d => rfl
      | none =>
        by_cases hc : ratioQ c.2 = rest.foldl (fun m c => max m (ratioQ c.2)) b
        · exfalso
          have hb : rest.foldl (fun m c => max m (ratioQ c.2)) b = b :=
            le_antisymm (hc ▸ hle) (foldl_max_ge_init (fun c => ratioQ c.2) rest b)
          exact absurd (hc.trans hb) (fun h => hge (le_of_eq h.symm))
        · simp [List.find?_cons, decide_eq_false hc]

/-- The final selection loop computes the last argmax of the wins over
visits ratios. -/
theorem bestAction_spec {A : Type} (cs : List (A × Node A)) :
    bestAction cs = (lastArgmax cs, maxRatio cs) := by
  rw [bestAction, lastArgmax, maxRatio, bestAction_go_spec cs none 0]

/-- Claim C8: after the budget is exhausted, think returns the
parent_action of the root child whose wins over visits ratio is greatest
among all root children, with equal ratios resolved in favor of the later
child in iteration order (the loop compares with greater-or-equal). -/
theorem think_returns_last_argmax :
    ∀ (S A : Type) [DecidableEq A] (g : GameIF S A) (state : S) (r : RandS) (N : Nat),
      think uctR g state r N = lastArgmax (thinkTree uctR g state r N).children := by
  intro S A instA g state r N
  rw [think, bestAction_spec]

theorem choiceL_ne_nil {A : Type} {l : List A} (h : l ≠ []) (rv : Nat) :
    ∃ a, choiceL rv l = some a := by
  rw [choiceL]
  have hlen : 0 < l.length := List.length_pos.mpr h
  have hlt : rv % l.length < l.length := Nat.mod_lt _ hlen
  exact ⟨l.get ⟨rv % l.length, hlt⟩, List.get?_eq_get hlt⟩

theorem expand_leaf_some {S A : Type} [DecidableEq A] (g : GameIF S A) (rv : Nat)
    (node : Node A) (state : S) (h : node.untried_actions ≠ []) :
    ∃ x, expand_leaf g rv node state = some x := by
  rcases choiceL_ne_nil h rv with ⟨a, ha⟩
  rw [expand_leaf, ha]
  exact ⟨_, rfl⟩

/-- Every iteration of the loop body calls backpropagate exactly once:
the expansion fallback is unreachable because a leaf with untried actions
always yields a successful choice. -/
theorem thinkStep_count {S A Q : Type} [DecidableEq A] [LinearOrder Q] [Zero Q]
    (score : Nat → Nat → Nat → Q) (g : GameIF S A) (idb : Nat) (state : S)
    (acc : Node A × RandS × Nat) :
    (thinkStep score g idb state acc).2.2 = acc.2.2 + 1 := by
  rw [thinkStep]
  dsimp only
  by_cases hu : (traverse_nodes score acc.1 state).2.1.untried_actions ≠ []
  · rw [if_pos hu]
    rcases expand_leaf_some g acc.2.1.next.1 (traverse_nodes score acc.1 state).2.1 state hu with
      ⟨x, hx⟩
    rw [hx]
  · rw [if_neg hu]

theorem thinkLoop_count {S A Q : Type} [DecidableEq A] [LinearOrder Q] [Zero Q]
    (score : Nat → Nat → Nat → Q) (g : GameIF S A) (idb : Nat) (state : S) :
    ∀ (N : Nat) (acc : Node A × RandS × Nat),
      (thinkLoop score g idb state N acc).2.2 = acc.2.2 + N := by
  intro N
  induction N with
  | zero => intro acc; rfl
  | succ k ih =>
    intro acc
    rw [thinkLoop, ih (thinkStep score g idb state acc), thinkStep_count]
    omega

/-- Claim C4: num_nodes, the reference iteration budget, is 1000, and with
an iteration budget of N the driver executes exactly N full MCTS
iterations: exactly N calls reach backpropagate before the final action is
selected. -/
theorem think_backprop_count_eq_budget :
    num_nodes = 1000 ∧
      ∀ (S A : Type) [DecidableEq A] (g : GameIF S A) (state : S) (r : RandS) (N : Nat),
        thinkCount uctR g state r N = N := by
  constructor
  · rfl
  · intro S A instA g state r N
    rw [thinkCount, thinkRun, thinkLoop_count]
    simp

theorem updFirst_dictInsert {A : Type} [DecidableEq A] (a : A) (f : Node A → Node A)
    (c : Node A) : ∀ cs : List (A × Node A),
      updFirst a f (dictInsert cs a c) = dictInsert cs a (f c) := by
  intro cs
  induction cs with
  | nil => simp [dictInsert, updFirst]
  | cons x rest ih =>
    rcases x with ⟨b, d⟩
    by_cases hb : b = a
    · simp [dictInsert, updFirst, hb]
    · simp [dictInsert, updFirst, hb, ih]

theorem mem_dictInsert {A : Type} [DecidableEq A] (a : A) (c : Node A) :
    ∀ {cs : List (A × Node A)} {x : A × Node A},
      x ∈ dictInsert cs a c → x = (a, c) ∨ x ∈ cs := by
  intro cs
  induction cs with
  | nil => intro x h; simp [dictInsert] at h; exact Or.inl h
  | cons y rest ih =>
    rcases y with ⟨b, d⟩
    intro x h
    by_cases hb : b = a
    · rw [dictInsert, if_pos hb] at h
      rcases List.mem_cons.mp h with hx | hx
      · exact Or.inl (by rw [hx, hb])
      · exact Or.inr (List.mem_cons_of_mem _ hx)
    · rw [dictInsert, if_neg hb] at h
      rcases List.mem_cons.mp h with hx | hx
      · exact Or.inr (hx ▸ List.mem_cons_self _ _)
      · rcases ih hx with h1 | h1
        · exact Or.inl h1
        · exact Or.inr (List.mem_cons_of_mem _ h1)

theorem keys_dictInsert_sub {A : Type} [DecidableEq A] (a : A) (c : Node A) :
    ∀ (cs : List (A × Node A)) (y : A),
      y ∈ (dictInsert cs a c).map Prod.fst → y ∈ cs.map Prod.fst ∨ y = a := by
  intro cs
  induction cs with
  | nil => intro y h; simp [dictInsert] at h; exact Or.inr h
  | cons x rest ih =>
    rcases x with ⟨b, d⟩
    intro y h
    by_cases hb : b = a
    · rw [dictInsert, if_pos hb] at h
      simp only [List.map_cons, List.mem_cons] at h ⊢
      rcases h with h | h
      · exact Or.inl (Or.inl h)
      · exact Or.inl (Or.inr h)
    · rw [dictInsert, if_neg hb] at h
      simp only [List.map_cons, List.mem_cons] at h ⊢
      rcases h with h | h
      · exact Or.inl (Or.inl h)
      · rcases ih y h with h1 | h1
        · exact Or.inl (Or.inr h1)
        · exact Or.inr h1

theorem dictInsert_nodup {A : Type} [DecidableEq A] (a : A) (c : Node A) :
    ∀ cs : List (A × Node A),
      (cs.map Prod.fst).Nodup → ((dictInsert cs a c).map Prod.fst).Nodup := by
  intro cs
  induction cs with
  | nil => intro _; simp [dictInsert]
  | cons x rest ih =>
    rcases x with ⟨b, d⟩
    intro hnd
    rw [List.map_cons, List.nodup_cons] at hnd
    by_cases hb : b = a
    · rw [dictInsert, if_pos hb, List.map_cons, List.nodup_cons]
      exact ⟨by simpa using hnd.1, hnd.2⟩
    · rw [dictInsert, if_neg hb, List.map_cons, List.nodup_cons]
      refine ⟨?_, ih hnd.2⟩
      intro hmem
      rcases keys_dictInsert_sub a c rest b (by simpa using hmem) with h1 | h1
      · exact hnd.1 (by simpa using h1)
      · exact hb h1

theorem mem_updFirst {A : Type} [DecidableEq A] (a : A) (f : Node A → Node A) :
    ∀ {cs : List (A × Node A)} {x : A × Node A}, x ∈ updFirst a f cs →
      x ∈ cs ∨ ∃ d, findA cs a = some d ∧ x = (a, f d) := by
  intro cs
  induction cs with
  | nil => intro x h; simp [updFirst] at h
  | cons y rest ih =>
    rcases y with ⟨b, d⟩
    intro x h
    by_cases hb : b = a
    · rw [updFirst, if_pos hb] at h
      rcases List.mem_cons.mp h with hx | hx
      · subst hb
        exact Or.inr ⟨d, by rw [findA, if_pos rfl], hx⟩
      · exact Or.inl (List.mem_cons_of_mem _ hx)
    · rw [updFirst, if_neg hb] at h
      rcases List.mem_cons.mp h with hx | hx
      · exact Or.inl (hx ▸ List.mem_cons_self _ _)
      · rcases ih hx with h1 | ⟨e, he, hx2⟩
        · exact Or.inl (List.mem_cons_of_mem _ h1)
        · exact Or.inr ⟨e, by rw [findA, if_neg hb]; exact he, hx2⟩

@[simp] theorem backpropagate_visits {A : Type} [DecidableEq A] (won : Bool) (p : List A)
    (n : Node A) : (backpropagate won p n).visits = n.visits + 1 := by
  cases p with
  | nil => rw [backpropagate_nil, bump_visits]
  | cons a q => rw [backpropagate_cons, bump_visits, visits_mk]

@[simp] theorem backpropagate_wins {A : Type} [DecidableEq A] (won : Bool) (p : List A)
    (n : Node A) : (backpropagate won p n).wins = n.wins + if won then 1 else 0 := by
  cases p with
  | nil => rw [backpropagate_nil, bump_wins]
  | cons a q => rw [backpropagate_cons, bump_wins, wins_mk]

@[simp] theorem backpropagate_untried {A : Type} [DecidableEq A] (won : Bool) (p : List A)
    (n : Node A) : (backpropagate won p n).untried_actions = n.untried_actions := by
  cases p with
  | nil => rw [backpropagate_nil, bump_untried_actions]
  | cons a q => rw [backpropagate_cons, bump_untried_actions, untried_actions_mk]

theorem backpropagate_children_cons {A : Type} [DecidableEq A] (won : Bool) (a : A)
    (q : List A) (n : Node A) :
    (backpropagate won (a :: q) n).children = updFirst a (backpropagate won q) n.children := by
  rw [backpropagate_cons, bump_children, children_mk]

theorem backpropagate_keys {A : Type} [DecidableEq A] (won : Bool) (p : List A) (n : Node A) :
    (backpropagate won p n).children.map Prod.fst = n.children.map Prod.fst := by
  cases p with
  | nil => rw [backpropagate_nil, bump_children]
  | cons a q => rw [backpropagate_children_cons, updFirst_keys]

/-- Backpropagation preserves the tree invariant. -/
theorem invar_backpropagate {A : Type} [DecidableEq A] (won : Bool) :
    ∀ (p : List A) (n : Node A), invar n = true → invar (backpropagate won p n) = true := by
  intro p
  induction p with
  | nil =>
    intro n h
    rw [invar_iff] at h ⊢
    rcases h with ⟨h1, h2, h3⟩
    rw [backpropagate_nil]
    refine ⟨?_, ?_, ?_⟩
    · rw [bump_wins, bump_visits]
      cases won <;> simp <;> omega
    · rw [bump_children]
      exact h2
    · intro c hc
      rw [bump_children] at hc
      rcases h3 c hc with ⟨ha, hb, hcv⟩
      exact ⟨by rw [bump_visits]; omega, hb, hcv⟩
  | cons a q ih =>
    intro n h
    rw [invar_iff] at h ⊢
    rcases h with ⟨h1, h2, h3⟩
    refine ⟨?_, ?_, ?_⟩
    · rw [backpropagate_wins, backpropagate_visits]
      cases won <;> simp <;> omega
    · rw [backpropagate_keys]
      exact h2
    · intro c hc
      rw [backpropagate_children_cons] at hc
      rw [backpropagate_visits]
      rcases mem_updFirst a (backpropagate won q) hc with hx | ⟨d, hd, hx⟩
      · rcases h3 c hx with ⟨ha, hb, hcv⟩
        exact ⟨by omega, hb, hcv⟩
      · rcases h3 _ (findA_mem hd) with ⟨ha, hb, hcv⟩
        dsimp only at ha hb hcv
        rw [hx]
        refine ⟨?_, ?_, ih d hcv⟩
        · dsimp only
          simp only [backpropagate_visits]
          omega
        · dsimp only
          simp only [backpropagate_visits]
          omega

theorem updFirst_comp {A : Type} [DecidableEq A] (a : A) (f g : Node A → Node A) :
    ∀ cs : List (A × Node A),
      updFirst a f (updFirst a g cs) = updFirst a (fun d => f (g d)) cs := by
  intro cs
  induction cs with
  | nil => rfl
  | cons c rest ih =>
    rcases c with ⟨b, d⟩
    by_cases hb : b = a
    · simp [updFirst, hb]
    · simp [updFirst, hb, ih]

@[simp] theorem addChild_visits {A : Type} [DecidableEq A] (n : Node A) (a : A) (c : Node A) :
    (n.addChild a c).visits = n.visits := by
  cases n <;> rfl

theorem addChild_mk {A : Type} [DecidableEq A] (pa : Option A) (cs : List (A × Node A))
    (ua : List A) (w v : Nat) (a : A) (c : Node A) :
    (Node.mk pa cs ua w v).addChild a c = .mk pa (dictInsert cs a c) (ua.erase a) w v := rfl

theorem setNode_nil {A : Type} [DecidableEq A] (n m : Node A) : setNode n [] m = m := by
  cases n <;> rfl

theorem setNode_cons {A : Type} [DecidableEq A] (n : Node A) (b : A) (q : List A)
    (m : Node A) :
    setNode n (b :: q) m =
      .mk n.parent_action (updFirst b (fun d => setNode d q m) n.children)
        n.untried_actions n.wins n.visits := by
  cases n <;> rfl

theorem setNode_visits_addChild {A : Type} [DecidableEq A] (q : List A) (x lf : Node A)
    (a : A) (c : Node A) (h : getNode x q = some lf) :
    (setNode x q (lf.addChild a c)).visits = x.visits := by
  cases q with
  | nil =>
    simp only [getNode, Option.some.injEq] at h
    subst h
    rw [setNode_nil]
    exact addChild_visits x a c
  | cons b q' => rw [setNode_cons, visits_mk]

/-- The composite tree update of one expanding iteration preserves the
invariant: register a fresh zero-count child under the frontier node at
path p, then backpropagate along the extended path p ++ [a], which bumps
the new child to one visit before the iteration ends. -/
theorem invar_expand {A : Type} [DecidableEq A] (won : Bool) (a : A) (acts : List A) :
    ∀ (p : List A) (t leaf : Node A), invar t = true → getNode t p = some leaf →
      invar (backpropagate won (p ++ [a])
        (setNode t p (leaf.addChild a (newNode (some a) acts)))) = true := by
  intro p
  induction p with
  | nil =>
    intro t leaf hinv hget
    simp only [getNode, Option.some.injEq] at hget
    subst hget
    rw [setNode_nil, List.nil_append]
    rcases t with ⟨pa, cs, ua, w, v⟩
    rw [invar_iff] at hinv
    simp only [children_mk, wins_mk, visits_mk] at hinv
    rcases hinv with ⟨h1, h2, h3⟩
    rw [addChild_mk, invar_iff]
    refine ⟨?_, ?_, ?_⟩
    · rw [backpropagate_wins, backpropagate_visits, wins_mk, visits_mk]
      cases won <;> simp <;> omega
    · rw [backpropagate_keys, children_mk]
      exact dictInsert_nodup a _ cs h2
    · intro c hc
      rw [backpropagate_children_cons, children_mk, updFirst_dictInsert] at hc
      rw [backpropagate_visits, visits_mk]
      rcases mem_dictInsert a _ hc with hx | hx
      · rw [hx]
        refine ⟨?_, ?_, ?_⟩
        · dsimp only
          rw [backpropagate_visits]
          simp [newNode]
        · dsimp only
          rw [backpropagate_visits]
          simp [newNode]
        · dsimp only
          rw [backpropagate_nil, invar_iff]
          refine ⟨?_, ?_, ?_⟩
          · rw [bump_wins, bump_visits]
            simp [newNode]
            cases won <;> simp
          · simp [newNode, bump, List.Nodup]
          · intro c hc
            simp [newNode, bump] at hc
      · rcases h3 c hx with ⟨ha, hb, hcv⟩
        exact ⟨by omega, hb, hcv⟩
  | cons b q ih =>
    intro t leaf hinv hget
    rcases t with ⟨pa, cs, ua, w, v⟩
    rw [getNode_cons] at hget
    simp only [children_mk] at hget
    cases hfind : findA cs b with
    | none => rw [hfind] at hget; cases hget
    | some d =>
      rw [hfind] at hget
      rw [setNode_cons]
      simp only [children_mk, parent_action_mk, untried_actions_mk, wins_mk, visits_mk]
      rw [List.cons_append]
      rw [invar_iff] at hinv
      simp only [children_mk, wins_mk, visits_mk] at hinv
      rcases hinv with ⟨h1, h2, h3⟩
      rw [invar_iff]
      refine ⟨?_, ?_, ?_⟩
      · rw [backpropagate_wins, backpropagate_visits, wins_mk, visits_mk]
        cases won <;> simp <;> omega
      · rw [backpropagate_keys, children_mk, updFirst_keys]
        exact h2
      · intro c hc
        rw [backpropagate_children_cons, children_mk, updFirst_comp] at hc
        rw [backpropagate_visits, visits_mk]
        rcases mem_updFirst b _ hc with hx | ⟨e, he, hx⟩
        · rcases h3 c hx with ⟨ha, hb', hcv⟩
          exact ⟨by omega, hb', hcv⟩
        · rw [hfind] at he
          injection he with he
          subst he
          rcases h3 _ (findA_mem hfind) with ⟨ha, hb', hcv⟩
          dsimp only at ha hb' hcv
          rw [hx]
          refine ⟨?_, ?_, ?_⟩
          · dsimp only
            rw [backpropagate_visits, setNode_visits_addChild q d leaf a _ hget]
            omega
          · dsimp only
            rw [backpropagate_visits]
            omega
          · dsimp only
            exact ih d leaf hcv hget

theorem expand_leaf_eq {S A : Type} [DecidableEq A] (g : GameIF S A) (rv : Nat)
    (node : Node A) (state : S) (h : node.untried_actions ≠ []) :
    ∃ action, choiceL rv node.untried_actions = some action ∧
      expand_leaf g rv node state =
        some (node.addChild action (newNode (some action)
          (g.legal_actions (g.next_state state action))), action, g.next_state state action) := by
  rcases choiceL_ne_nil h rv with ⟨a, ha⟩
  exact ⟨a, ha, by rw [expand_leaf, ha]⟩

/-- Both branches of one loop iteration preserve the invariant: the
expanding branch by invar_expand along the traverse path, the non
expanding branch by a root-only backpropagation. -/
theorem invar_thinkStep {S A Q : Type} [DecidableEq A] [LinearOrder Q] [Zero Q]
    (score : Nat → Nat → Nat → Q) (g : GameIF S A) (idb : Nat) (state : S)
    (acc : Node A × RandS × Nat) (h : invar acc.1 = true) :
    invar (thinkStep score g idb state acc).1 = true := by
  rw [thinkStep]
  dsimp only
  by_cases hu : (traverse_nodes score acc.1 state).2.1.untried_actions ≠ []
  · rw [if_pos hu]
    rcases expand_leaf_eq g acc.2.1.next.1 (traverse_nodes score acc.1 state).2.1 state hu with
      ⟨act, hch, hexp⟩
    rw [hexp]
    exact invar_expand _ act _ (traverse_nodes score acc.1 state).1 acc.1 _ h
      (traverse_getNode score acc.1 state h)
  · rw [if_neg hu]
    exact invar_backpropagate _ [] acc.1 h

theorem invar_thinkLoop {S A Q : Type} [DecidableEq A] [LinearOrder Q] [Zero Q]
    (score : Nat → Nat → Nat → Q) (g : GameIF S A) (idb : Nat) (state : S) :
    ∀ (N : Nat) (acc : Node A × RandS × Nat), invar acc.1 = true →
      invar (thinkLoop score g idb state N acc).1 = true := by
  intro N
  induction N with
  | zero => intro acc h; exact h
  | succ k ih =>
    intro acc h
    rw [thinkLoop]
    exact ih _ (invar_thinkStep score g idb state acc h)

theorem invar_rootNode {S A : Type} [DecidableEq A] (g : GameIF S A) (state : S) :
    invar (rootNode g state) = true := by
  rw [rootNode, newNode, invar_iff]
  refine ⟨le_refl _, ?_, ?_⟩
  · simp
  · intro c hc
    simp at hc

/-- Every tree the driver can build satisfies the invariant. -/
theorem invar_thinkTree {S A Q : Type} [DecidableEq A] [LinearOrder Q] [Zero Q]
    (score : Nat → Nat → Nat → Q) (g : GameIF S A) (state : S) (r : RandS) (N : Nat) :
    invar (thinkTree score g state r N) = true := by
  rw [thinkTree, thinkRun]
  exact invar_thinkLoop score g _ state N _ (invar_rootNode g state)

theorem thinkLoop_one {S A Q : Type} [DecidableEq A] [LinearOrder Q] [Zero Q]
    (score : Nat → Nat → Nat → Q) (g : GameIF S A) (idb : Nat) (state : S)
    (acc : Node A × RandS × Nat) :
    thinkLoop score g idb state 1 acc = thinkStep score g idb state acc := rfl

/-- One fully evaluated iteration of the driver on the two-action game
from state 5 with the zero random stream: the root expands action 1, the
bot (player 2 at state 5) does not move at the returned state 4 (player
1), so the iteration is counted as won and both the root and the new
child are bumped to one visit and one win. -/
theorem thinkTree_gTwo_one :
    thinkTree uctR gTwo 5 rZero 1 =
      .mk none [(1, .mk (some 1) [] [1, 2] 1 1)] [2] 1 1 := by
  have htr : traverse_nodes uctR (Node.mk none [] [1, 2] 0 0 : Node Nat) (5 : Nat) =
      ([], .mk none [] [1, 2] 0 0, 5) :=
    traverse_unfold_untried uctR _ _ (by simp)
  rw [thinkTree, thinkRun, thinkLoop_one, thinkStep]
  dsimp only
  rw [show rootNode gTwo 5 = (Node.mk none [] [1, 2] 0 0 : Node Nat) from rfl, htr]
  rfl

/-- Claim C9: after any number of completed MCTS iterations, every node of
the search tree satisfies wins at most visits, and every child's visits
count is at most its parent's visits count. -/
theorem think_tree_monotone_invariants :
    ∀ (S A : Type) [DecidableEq A] (g : GameIF S A) (state : S) (r : RandS) (N : Nat)
      (p : List A) (n : Node A),
      getNode (thinkTree uctR g state r N) p = some n →
      n.wins ≤ n.visits ∧ ∀ c ∈ n.children, c.2.visits ≤ n.visits := by
  intro S A instA g state r N p n hget
  have hinv := invar_getNode p _ n (invar_thinkTree uctR g state r N) hget
  rw [invar_iff] at hinv
  exact ⟨hinv.1, fun c hc => (hinv.2.2 c hc).1⟩

theorem think_tree_monotone_invariants_witness :
    (Node.mk none [(1, Node.mk (some 1) [] [1, 2] 1 1)] [2] 1 1 : Node Nat).wins ≤
        (Node.mk none [(1, Node.mk (some 1) [] [1, 2] 1 1)] [2] 1 1 : Node Nat).visits ∧
      ∀ c ∈ (Node.mk none [(1, Node.mk (some 1) [] [1, 2] 1 1)] [2] 1 1 : Node Nat).children,
        c.2.visits ≤ (Node.mk none [(1, Node.mk (some 1) [] [1, 2] 1 1)] [2] 1 1 :
          Node Nat).visits :=
  think_tree_monotone_invariants Nat Nat gTwo 5 rZero 1 []
    (.mk none [(1, .mk (some 1) [] [1, 2] 1 1)] [2] 1 1) (by rw [thinkTree_gTwo_one]; rfl)

/-- Claim C10: every child node in any tree the driver builds has visits
at least 1 at every iteration boundary, so whenever selection computes a
UCT score for a child the divisions and the logarithm in the formula never
see a zero child visit count: selection scores only children present in
the tree, and every child is created together with a backpropagation
through it before its iteration ends. -/
theorem think_tree_children_visited :
    ∀ (S A : Type) [DecidableEq A] (g : GameIF S A) (state : S) (r : RandS) (N : Nat)
      (p : List A) (n : Node A) (c : A × Node A),
      getNode (thinkTree uctR g state r N) p = some n → c ∈ n.children → 1 ≤ c.2.visits := by
  intro S A instA g state r N p n c hget hc
  have hinv := invar_getNode p _ n (invar_thinkTree uctR g state r N) hget
  rw [invar_iff] at hinv
  exact (hinv.2.2 c hc).2.1

theorem think_tree_children_visited_witness :
    1 ≤ ((1 : Nat), (Node.mk (some 1) [] [1, 2] 1 1 : Node Nat)).2.visits :=
  think_tree_children_visited Nat Nat gTwo 5 rZero 1 []
    (.mk none [(1, .mk (some 1) [] [1, 2] 1 1)] [2] 1 1)
    (1, .mk (some 1) [] [1, 2] 1 1) (by rw [thinkTree_gTwo_one]; rfl) (List.mem_cons_self _ _)

/-- Claim C6 counterexample: the expand_leaf of mcts_modified.py performs
no terminal-state check.  On the everywhere-terminal game gT and the
terminal node nodeT (no untried actions) it fails with the IndexError of
random.choice on an empty sequence (none) instead of being a no-op that
returns the node and state unchanged. -/
theorem expand_leaf_modified_no_terminal_check :
    gT.is_ended 0 = true ∧ expand_leaf gT 0 nodeT 0 = none :=
  ⟨rfl, rfl⟩

/-- Claim C6 amended: only the vanilla variant's expand_leaf checks
is_ended, and it does so before any choice from the untried-action set: on
a state the game reports terminal it is a no-op returning the node and the
state unchanged and expanding no action. -/
theorem expand_leaf_vanilla_terminal_noop :
    ∀ (S A : Type) [DecidableEq A] (g : GameIF S A) (rv : Nat) (node : Node A) (state : S),
      g.is_ended state = true →
      expand_leaf_vanilla g rv node state = some (node, none, state) := by
  intro S A instA g rv node state h
  rw [expand_leaf_vanilla, if_neg (by rw [h]; simp)]

theorem expand_leaf_vanilla_terminal_noop_witness :
    expand_leaf_vanilla gT 0 nodeT 0 = some (nodeT, none, 0) :=
  expand_leaf_vanilla_terminal_noop Nat Nat gT 0 nodeT 0 (by rfl)

theorem bestChild_nil {A Q : Type} [LinearOrder Q] [Zero Q] (sc : A × Node A → Q) :
    bestChild sc ([] : List (A × Node A)) = (0, none) := rfl

/-- On a childless, fully untried-free tree the loop body only bumps the
root: no child is ever created from a terminal root. -/
theorem thinkStep_empty {S A Q : Type} [DecidableEq A] [LinearOrder Q] [Zero Q]
    (score : Nat → Nat → Nat → Q) (g : GameIF S A) (idb : Nat) (state : S)
    (acc : Node A × RandS × Nat) (h1 : acc.1.children = [])
    (h2 : acc.1.untried_actions = []) :
    (thinkStep score g idb state acc).1.children = [] ∧
      (thinkStep score g idb state acc).1.untried_actions = [] := by
  have htr : traverse_nodes score acc.1 state = ([], acc.1, state) :=
    traverse_unfold_none score acc.1 state 0 h2 (by rw [h1]; exact bestChild_nil _)
  rw [thinkStep]
  dsimp only
  rw [htr]
  dsimp only
  rw [if_neg (by simp [h2])]
  constructor
  · rw [backpropagate_nil, bump_children, h1]
  · rw [backpropagate_nil, bump_untried_actions, h2]

theorem thinkLoop_empty {S A Q : Type} [DecidableEq A] [LinearOrder Q] [Zero Q]
    (score : Nat → Nat → Nat → Q) (g : GameIF S A) (idb : Nat) (state : S) :
    ∀ (N : Nat) (acc : Node A × RandS × Nat), acc.1.children = [] →
      acc.1.untried_actions = [] → (thinkLoop score g idb state N acc).1.children = [] := by
  intro N
  induction N with
  | zero => intro acc h1 _; exact h1
  | succ k ih =>
    intro acc h1 h2
    rw [thinkLoop]
    rcases thinkStep_empty score g idb state acc h1 h2 with ⟨ha, hb⟩
    exact ih _ ha hb

theorem think_terminal_none_aux {S A : Type} [DecidableEq A] (g : GameIF S A) (state : S)
    (r : RandS) (N : Nat) (h : g.legal_actions state = []) :
    think uctR g state r N = none := by
  rw [think]
  have hch : (thinkTree uctR g state r N).children = [] := by
    rw [thinkTree, thinkRun]
    exact thinkLoop_empty uctR g _ state N _ (by simp [rootNode, newNode])
      (by simp [rootNode, newNode, h])
  rw [hch]
  rfl

/-- Claim C3 counterexample: think called on a terminal state (the
everywhere-terminal game gT has an empty legal-action set everywhere)
runs its full reference budget of num_nodes = 1000 iterations over a
childless root, completes normally and returns None -- its body contains
no raise at all -- instead of signaling an InvalidState error. -/
theorem think_terminal_returns_none_concrete :
    think uctR gT 0 rZero num_nodes = none :=
  think_terminal_none_aux gT 0 rZero num_nodes rfl

/-- Claim C3 amended: for every state whose legal-action set is empty,
think returns None (no action) after exhausting its budget on a childless
root; no InvalidState error is signaled, so the caller must treat the
absent action as the error. -/
theorem think_terminal_returns_none :
    ∀ (S A : Type) [DecidableEq A] (g : GameIF S A) (state : S) (r : RandS) (N : Nat),
      g.legal_actions state = [] → think uctR g state r N = none := by
  intro S A instA g state r N h
  exact think_terminal_none_aux g state r N h

theorem think_terminal_returns_none_witness :
    think uctR gT 7 rZero 2 = none :=
  think_terminal_returns_none Nat Nat gT 7 rZero 2 (by rfl)

end MCTS
